import Mathlib

/-!
Verification of the `registre` time-tracking CLI (`src/registre/main.py`)
against its natural-language specification.

The embedding models:
* the sqlite table `reg` as a list of `Record`s in insertion (rowid) order,
  together with the next auto-increment id;
* timestamps as integer Unix-epoch seconds (the adapter stores
  `float(d.timestamp())`; whole seconds are represented exactly);
* the CLI commands `start` / `stop` as state transformers taking the wall-clock
  reads and the interactive confirmation answer as explicit inputs;
* the sqlite date functions (`date(start,'unixepoch')`,
  `strftime('%Y-%m', ...)`) and Python `datetime.date` arithmetic over civil
  (year, month, day) triples, with epoch-to-civil conversion following the
  standard proleptic-Gregorian algorithm that sqlite implements.
-/

namespace Registre

/-- A row of the `reg` table: `id INTEGER PRIMARY KEY, project TEXT NOT NULL,
task TEXT, start TIMESTAMP NOT NULL, stop TIMESTAMP`.  Timestamps are epoch
seconds; `stop = none` is an open interval. -/
structure Record where
  id : Nat
  project : String
  task : Option String
  start : Int
  stop : Option Int
deriving DecidableEq, Repr

/-- The persistent store: rows in insertion (rowid) order plus the next
auto-increment primary key sqlite would assign. -/
structure Store where
  recs : List Record
  nextId : Nat
deriving DecidableEq, Repr

/-- The freshly initialized empty database (after `innit`). -/
def Store.empty : Store := ⟨[], 1⟩

/-- One step of the sqlite `ORDER BY start DESC LIMIT 1` scan: keep the
earliest-inserted row among those with maximal `start`. -/
def lastStep (acc : Option Record) (r : Record) : Option Record :=
  match acc with
  | none => some r
  | some a => if a.start < r.start then some r else some a

/-- `select_last` (main.py:105-117): the most recently started record,
optionally restricted to one project (`SELECT * FROM reg [WHERE project=?]
ORDER BY start DESC LIMIT 1`). -/
def select_last (s : Store) (proj : Option String) : Option Record :=
  match proj with
  | some p => (s.recs.filter (fun r => r.project == p)).foldl lastStep none
  | none => s.recs.foldl lastStep none

/-- `INSERT INTO reg (project, task, start) VALUES (?, ?, ?)`: append an open
row with the next auto-increment id. -/
def insertReg (s : Store) (p : String) (t : Option String) (st : Int) : Store :=
  ⟨s.recs ++ [⟨s.nextId, p, t, st, none⟩], s.nextId + 1⟩

/-- `UPDATE reg SET stop=? WHERE id=?`: set `stop` on every row whose id
matches. -/
def closeReg (s : Store) (i : Nat) (stopT : Int) : Store :=
  ⟨s.recs.map (fun r => if r.id = i then { r with stop := some stopT } else r),
    s.nextId⟩

/-- The `stop` command (main.py:205-223): look up the most recently started
record; if there is none or it is already closed, do nothing; otherwise set its
`stop` to the current time. -/
def stopCmd (s : Store) (now : Int) : Store :=
  match select_last s none with
  | none => s
  | some last =>
    match last.stop with
    | some _ => s
    | none => closeReg s last.id now

/-- Whether the `stop` command prints "Nothing to stop." (main.py:209-211):
true iff there is no record at all or the most recently started one is already
closed. -/
def stopPrintsNothing (s : Store) : Bool :=
  match select_last s none with
  | none => true
  | some last => !last.stop.isNone

/-- The `start` command (main.py:183-202).  `now` is the clock read at entry
(line 185, before the prompt); `nowStop` is the clock read inside the nested
`stop` call (line 214, after the prompt), so `now ≤ nowStop` in any real run;
`confirm` is the interactive answer — `false` covers both a declined
confirmation and a non-interactive session, where `click.confirm(abort=True)`
aborts the whole command. -/
def startCmd (s : Store) (p task : String) (now nowStop : Int)
    (confirm : Bool) : Store :=
  match select_last s none with
  | some last =>
    if last.stop = none then
      if confirm then insertReg (stopCmd s nowStop) p (some task) now
      else s
    else insertReg s p (some task) now
  | none => insertReg s p (some task) now

/-- The `current` command's query (main.py:231-233):
`SELECT * FROM reg WHERE stop IS NULL`, taking the first row. -/
def currentOpen (s : Store) : Option Record :=
  (s.recs.filter (fun r => r.stop.isNone)).head?

/-- Number of open rows (`stop IS NULL`) in the store. -/
def openCount (s : Store) : Nat :=
  s.recs.countP (fun r => r.stop.isNone)

/-! ### Basic facts about the `select_last` fold -/

theorem lastStep_ne_none (acc : Option Record) (r : Record) :
    lastStep acc r ≠ none := by
  cases acc with
  | none => simp [lastStep]
  | some a =>
    simp only [lastStep]
    split <;> simp

theorem foldl_lastStep_ne_none (l : List Record) (a : Record) :
    l.foldl lastStep (some a) ≠ none := by
  induction l generalizing a with
  | nil => simp
  | cons b t ih =>
    simp only [List.foldl_cons]
    cases h : lastStep (some a) b with
    | none => exact absurd h (lastStep_ne_none _ _)
    | some c => exact ih c

theorem select_last_eq_none (s : Store) (h : select_last s none = none) :
    s.recs = [] := by
  cases hr : s.recs with
  | nil => rfl
  | cons a t =>
    exfalso
    simp only [select_last, hr, List.foldl_cons, lastStep] at h
    exact foldl_lastStep_ne_none t a h

theorem foldl_lastStep_mem (l : List Record) (a : Record) (x : Record)
    (h : l.foldl lastStep (some a) = some x) : x = a ∨ x ∈ l := by
  induction l generalizing a with
  | nil => simp at h; exact Or.inl h.symm
  | cons b t ih =>
    simp only [List.foldl_cons, lastStep] at h
    split at h
    · rcases ih b h with h' | h'
      · exact Or.inr (by simp [h'])
      · exact Or.inr (List.mem_cons_of_mem _ h')
    · rcases ih a h with h' | h'
      · exact Or.inl h'
      · exact Or.inr (List.mem_cons_of_mem _ h')

theorem select_last_mem (s : Store) (x : Record)
    (h : select_last s none = some x) : x ∈ s.recs := by
  cases hr : s.recs with
  | nil => simp [select_last, hr] at h
  | cons a t =>
    simp only [select_last, hr, List.foldl_cons, lastStep] at h
    rcases foldl_lastStep_mem t a x h with h' | h'
    · simp [hr, h']
    · simp [hr, h']

/-- If `r` is in the list and every other element starts strictly earlier,
the fold returns `r` (the maximal-`start` row is unique, so the sqlite
tie-break never matters). -/
theorem foldl_lastStep_max (r : Record) (l : List Record) (b : Record)
    (hall : ∀ x ∈ l, x = r ∨ x.start < r.start)
    (hacc : b = r ∨ (r ∈ l ∧ b.start < r.start)) :
    l.foldl lastStep (some b) = some r := by
  induction l generalizing b with
  | nil =>
    rcases hacc with h | h
    · simp [h]
    · exact absurd h.1 (List.not_mem_nil r)
  | cons a t ih =>
    have htall : ∀ x ∈ t, x = r ∨ x.start < r.start :=
      fun x hx => hall x (List.mem_cons_of_mem _ hx)
    simp only [List.foldl_cons, lastStep]
    rcases hacc with hb | ⟨hrmem, hblt⟩
    · subst hb
      rcases hall a (by simp) with ha | ha
      · subst ha
        rw [if_neg (lt_irrefl _)]
        exact ih _ htall (Or.inl rfl)
      · rw [if_neg (not_lt.mpr (le_of_lt ha))]
        exact ih _ htall (Or.inl rfl)
    · rcases List.mem_cons.mp hrmem with hra | hrt
      · subst hra
        rw [if_pos hblt]
        exact ih _ htall (Or.inl rfl)
      · rcases hall a (by simp) with ha | ha
        · subst ha
          rw [if_pos hblt]
          exact ih a htall (Or.inl rfl)
        · split
          · exact ih a htall (Or.inr ⟨hrt, ha⟩)
          · exact ih b htall (Or.inr ⟨hrt, hblt⟩)

/-- If some record strictly dominates every other record's `start`, then
`select_last` returns it. -/
theorem select_last_of_max (s : Store) (r : Record) (hr : r ∈ s.recs)
    (hmax : ∀ x ∈ s.recs, x ≠ r → x.start < r.start) :
    select_last s none = some r := by
  have hall : ∀ x ∈ s.recs, x = r ∨ x.start < r.start := by
    intro x hx
    by_cases hxr : x = r
    · exact Or.inl hxr
    · exact Or.inr (hmax x hx hxr)
  cases hrec : s.recs with
  | nil => rw [hrec] at hr; exact absurd hr (List.not_mem_nil r)
  | cons a t =>
    simp only [select_last, hrec, List.foldl_cons, lastStep]
    rw [hrec] at hall hr
    rcases hall a (by simp) with ha | ha
    · exact foldl_lastStep_max r t a (fun x hx => hall x (by simp [hx]))
        (Or.inl ha)
    · have hrt : r ∈ t := by
        rcases List.mem_cons.mp hr with h | h
        · rw [h] at ha; exact absurd ha (lt_irrefl _)
        · exact h
      exact foldl_lastStep_max r t a (fun x hx => hall x (by simp [hx]))
        (Or.inr ⟨hrt, ha⟩)

/-! ### Claims C4, C9, C3, C5, C10: command-level semantics -/

/-- A store holding a single open record, used as concrete input by several
witnesses. -/
def sOpen : Store := ⟨[⟨1, "p", some "a", 10, none⟩], 2⟩

/-- C4: when `start` finds an open interval and the confirmation is declined
(or unavailable non-interactively), `click.confirm(abort=True)` aborts the
whole command: no row is inserted and the open interval is not closed, so the
store is unchanged. -/
theorem C4_declined_abort (s : Store) (p task : String) (now nowStop : Int)
    (last : Record) (h1 : select_last s none = some last)
    (h2 : last.stop = none) :
    startCmd s p task now nowStop false = s := by
  unfold startCmd
  rw [h1]
  simp [h2]

theorem C4_declined_abort_witness :
    select_last sOpen none = some ⟨1, "p", some "a", 10, none⟩ ∧
    (⟨1, "p", some "a", 10, none⟩ : Record).stop = none ∧
    startCmd sOpen "q" "u" 20 21 false = sOpen :=
  ⟨by decide, rfl,
    C4_declined_abort sOpen "q" "u" 20 21 ⟨1, "p", some "a", 10, none⟩
      (by decide) rfl⟩

/-- C9: a record appended by `start` (`INSERT INTO reg (project, task, start)`)
and immediately read back by the `current` query (`SELECT * FROM reg WHERE stop
IS NULL`) yields identical `project`, `task` and `start` values.  Timestamps
are epoch seconds in the model, so the whole-second value round-trips exactly.
The hypothesis says no other open row exists (the store invariant). -/
theorem C9_roundtrip (s : Store) (p task : String) (st : Int)
    (h : ∀ r ∈ s.recs, r.stop ≠ none) :
    currentOpen (insertReg s p (some task) st) =
      some ⟨s.nextId, p, some task, st, none⟩ := by
  unfold currentOpen insertReg
  rw [List.filter_append]
  have hnil : s.recs.filter (fun r => r.stop.isNone) = [] := by
    rw [List.filter_eq_nil_iff]
    intro a ha
    cases hstop : a.stop with
    | none => exact absurd hstop (h a ha)
    | some v => simp [hstop]
  rw [hnil]
  simp

theorem C9_roundtrip_witness :
    (∀ r ∈ Store.empty.recs, r.stop ≠ none) ∧
    currentOpen (insertReg Store.empty "p" (some "t") 100) =
      some ⟨1, "p", some "t", 100, none⟩ :=
  ⟨by decide, C9_roundtrip Store.empty "p" "t" 100 (by decide)⟩

/-- A store in which the open record is *not* the most recently started one:
a closed record with `start = 10` and an open record with `start = 5`. -/
def s3 : Store := ⟨[⟨1, "p", some "a", 10, some 11⟩, ⟨2, "q", some "b", 5, none⟩], 3⟩

/-- C3 counterexample: the claim quantifies over *every* store state, but
`stop` decides what to do from `select_last` (the maximal-`start` row) alone.
In the store `s3` an open interval exists (record 2), yet `stop` mutates
nothing and prints "Nothing to stop.", because the most recently started
record is closed. -/
theorem C3_counterexample :
    (∃ r ∈ s3.recs, r.stop = none) ∧ stopCmd s3 20 = s3 ∧
      stopPrintsNothing s3 = true := by decide

/-- C3 (amended): for every store state in which any open record is strictly
the most recently started one — which holds in every state the CLI itself can
produce under a forward-moving clock — `stop` closes the open interval if one
exists (leaving no open row), and otherwise performs no mutation and reports
"Nothing to stop." as a normal, non-error outcome. -/
theorem C3_stop_semantics (s : Store) (now : Int)
    (hmax : ∀ r ∈ s.recs, r.stop = none →
      ∀ x ∈ s.recs, x ≠ r → x.start < r.start) :
    ((∀ r ∈ s.recs, r.stop ≠ none) →
        stopCmd s now = s ∧ stopPrintsNothing s = true) ∧
    (∀ r ∈ s.recs, r.stop = none →
        stopCmd s now = closeReg s r.id now ∧
        stopPrintsNothing s = false ∧
        ∀ x ∈ (stopCmd s now).recs, x.stop ≠ none) := by
  constructor
  · intro hclosed
    cases hsel : select_last s none with
    | none =>
      constructor
      · unfold stopCmd; rw [hsel]
      · unfold stopPrintsNothing; rw [hsel]
    | some last =>
      have hmem := select_last_mem s last hsel
      have hne := hclosed last hmem
      cases hstop : last.stop with
      | none => exact absurd hstop hne
      | some v =>
        constructor
        · simp only [stopCmd, hsel, hstop]
        · simp only [stopPrintsNothing, hsel, hstop, Option.isNone_some,
            Bool.not_false]
  · intro r hr hopen
    have hsel : select_last s none = some r :=
      select_last_of_max s r hr (hmax r hr hopen)
    have hcmd : stopCmd s now = closeReg s r.id now := by
      simp only [stopCmd, hsel, hopen]
    refine ⟨hcmd, ?_, ?_⟩
    · simp only [stopPrintsNothing, hsel, hopen, Option.isNone_none,
        Bool.not_true]
    · intro x hx
      rw [hcmd] at hx
      simp only [closeReg, List.mem_map] at hx
      obtain ⟨y, hy, hxy⟩ := hx
      by_cases hid : y.id = r.id
      · rw [if_pos hid] at hxy
        rw [← hxy]
        simp
      · rw [if_neg hid] at hxy
        subst hxy
        intro hynone
        have hyr : y = r := by
          by_contra hne
          have h1 := hmax r hr hopen y hy hne
          have h2 := hmax y hy hynone r hr (fun h => hne h.symm)
          omega
        exact hid (by rw [hyr])

theorem C3_stop_semantics_witness :
    (∀ r ∈ sOpen.recs, r.stop = none →
        ∀ x ∈ sOpen.recs, x ≠ r → x.start < r.start) ∧
    (∀ r ∈ sOpen.recs, r.stop = none →
        stopCmd sOpen 20 = closeReg sOpen r.id 20 ∧
        stopPrintsNothing sOpen = false ∧
        ∀ x ∈ (stopCmd sOpen 20).recs, x.stop ≠ none) :=
  ⟨by decide, (C3_stop_semantics sOpen 20 (by decide)).2⟩

/-- Shared helper: when `start` runs with an open record `r` dominating every
other row's `start` and the confirmation is accepted, the store becomes: `r`
closed at `nowStop` (the clock read inside the nested `stop` call), followed by
a fresh open row whose `start` is `now` (the clock read at command entry). -/
theorem start_confirm_closes (s : Store) (p task : String) (now nowStop : Int)
    (r : Record) (hr : r ∈ s.recs) (hopen : r.stop = none)
    (hmax : ∀ x ∈ s.recs, x ≠ r → x.start < r.start) :
    startCmd s p task now nowStop true =
      ⟨(s.recs.map fun x =>
          if x.id = r.id then { x with stop := some nowStop } else x) ++
        [⟨s.nextId, p, some task, now, none⟩], s.nextId + 1⟩ := by
  have hsel : select_last s none = some r := select_last_of_max s r hr hmax
  have hstop : stopCmd s nowStop = closeReg s r.id nowStop := by
    simp only [stopCmd, hsel, hopen]
  simp only [startCmd, hsel, hopen, if_true, if_pos rfl, hstop]
  rfl

/-- C5: `start` while another interval is open, with the confirmation
accepted, closes the old interval with a `stop` (`nowStop`) strictly greater
than its `start`, then inserts a new open record whose `start` is `now`, the
clock value captured when the command was invoked. -/
theorem C5_confirmed_switch (s : Store) (p task : String) (now nowStop : Int)
    (r : Record) (hr : r ∈ s.recs) (hopen : r.stop = none)
    (hmax : ∀ x ∈ s.recs, x ≠ r → x.start < r.start)
    (h1 : r.start < now) (h2 : now ≤ nowStop) :
    (startCmd s p task now nowStop true).recs =
      (s.recs.map fun x =>
        if x.id = r.id then { x with stop := some nowStop } else x) ++
      [⟨s.nextId, p, some task, now, none⟩] ∧
    r.start < nowStop := by
  constructor
  · rw [start_confirm_closes s p task now nowStop r hr hopen hmax]
  · omega

theorem C5_confirmed_switch_witness :
    ((10 : Int) < 20 ∧ (20 : Int) ≤ 21) ∧
    ((startCmd sOpen "q" "u" 20 21 true).recs =
      (sOpen.recs.map fun x =>
        if x.id = 1 then { x with stop := some 21 } else x) ++
      [⟨2, "q", some "u", 20, none⟩] ∧
    (10 : Int) < 21) :=
  ⟨⟨by decide, by decide⟩,
    C5_confirmed_switch sOpen "q" "u" 20 21 ⟨1, "p", some "a", 10, none⟩
      (by decide) rfl (by decide) (by decide) (by decide)⟩

/-- C10: because `start` reads its clock before the confirmation prompt and
the nested `stop` reads it after, the new record's `start` (`now`) is ≤ the
old record's `stop` (`nowStop`): the two stored intervals may overlap. -/
theorem C10_overlap (s : Store) (p task : String) (now nowStop : Int)
    (r : Record) (hr : r ∈ s.recs) (hopen : r.stop = none)
    (hmax : ∀ x ∈ s.recs, x ≠ r → x.start < r.start)
    (h2 : now ≤ nowStop) :
    ∃ old ∈ (startCmd s p task now nowStop true).recs,
      old.id = r.id ∧ old.stop = some nowStop ∧
      ∃ newRec ∈ (startCmd s p task now nowStop true).recs,
        newRec.start = now ∧ newRec.stop = none ∧ newRec.start ≤ nowStop := by
  rw [start_confirm_closes s p task now nowStop r hr hopen hmax]
  refine ⟨{ r with stop := some nowStop }, ?_, rfl, rfl,
    ⟨s.nextId, p, some task, now, none⟩, ?_, rfl, rfl, h2⟩
  · apply List.mem_append_left
    have hmem := List.mem_map_of_mem
      (fun x => if x.id = r.id then { x with stop := some nowStop } else x) hr
    simpa using hmem
  · simp

theorem C10_overlap_witness :
    (20 : Int) ≤ 21 ∧
    (∃ old ∈ (startCmd sOpen "q" "u" 20 21 true).recs,
      old.id = 1 ∧ old.stop = some 21 ∧
      ∃ newRec ∈ (startCmd sOpen "q" "u" 20 21 true).recs,
        newRec.start = 20 ∧ newRec.stop = none ∧ newRec.start ≤ 21) :=
  ⟨by decide,
    C10_overlap sOpen "q" "u" 20 21 ⟨1, "p", some "a", 10, none⟩
      (by decide) rfl (by decide) (by decide)⟩

/-! ### C1: at most one open interval after any command sequence -/

/-- One CLI invocation: `start project task` (with its two clock reads and the
confirmation answer) or `stop` (with its clock read). -/
inductive Cmd where
  | start (project task : String) (now nowStop : Int) (confirm : Bool)
  | stop (now : Int)
deriving DecidableEq, Repr

def applyCmd (s : Store) : Cmd → Store
  | .start p tk now nowStop confirm => startCmd s p tk now nowStop confirm
  | .stop now => stopCmd s now

def runCmds (s : Store) : List Cmd → Store
  | [] => s
  | c :: cs => runCmds (applyCmd s c) cs

/-- The wall clock moves forward: each command's first clock read is strictly
later than everything before it, and inside one `start` the nested `stop`'s
read is not earlier than the command-entry read. -/
def Chrono : Int → List Cmd → Prop
  | _, [] => True
  | t, .start _ _ now nowStop _ :: cs => t < now ∧ now ≤ nowStop ∧ Chrono nowStop cs
  | t, .stop now :: cs => t < now ∧ Chrono now cs

instance chronoDecidable : ∀ (t : Int) (cs : List Cmd), Decidable (Chrono t cs)
  | _, [] => .isTrue trivial
  | _, .start _ _ _ nowStop _ :: cs =>
    have : Decidable (Chrono nowStop cs) := chronoDecidable nowStop cs
    inferInstanceAs (Decidable (_ ∧ _ ∧ _))
  | _, .stop now :: cs =>
    have : Decidable (Chrono now cs) := chronoDecidable now cs
    inferInstanceAs (Decidable (_ ∧ _))

/-- Reachable-state invariant, parameterized by an upper bound `t` on every
clock value seen so far: all starts are ≤ t and ids are below the
auto-increment counter; rows are in insertion order with strictly increasing
ids and starts; at most one row is open; and an open row strictly dominates
every other row's `start`. -/
def Inv (t : Int) (s : Store) : Prop :=
  (∀ r ∈ s.recs, r.start ≤ t ∧ r.id < s.nextId) ∧
  s.recs.Pairwise (fun a b => a.id ≠ b.id ∧ a.start < b.start) ∧
  openCount s ≤ 1 ∧
  (∀ r ∈ s.recs, r.stop = none → ∀ x ∈ s.recs, x ≠ r → x.start < r.start)

theorem Inv.mono {t t' : Int} {s : Store} (h : Inv t s) (ht : t ≤ t') :
    Inv t' s :=
  ⟨fun r hr => ⟨le_trans (h.1 r hr).1 ht, (h.1 r hr).2⟩, h.2.1, h.2.2.1,
    h.2.2.2⟩

theorem two_le_countP (p : Record → Bool) (l : List Record) (x y : Record)
    (hx : x ∈ l) (hy : y ∈ l) (hxy : x ≠ y) (hpx : p x) (hpy : p y) :
    2 ≤ l.countP p := by
  induction l with
  | nil => exact absurd hx (List.not_mem_nil x)
  | cons a t ih =>
    rw [List.countP_cons]
    rcases List.mem_cons.mp hx with rfl | hx'
    · have hyt : y ∈ t := by
        rcases List.mem_cons.mp hy with h | h
        · exact absurd h.symm hxy
        · exact h
      have h1 : 0 < t.countP p := List.countP_pos_iff.mpr ⟨y, hyt, hpy⟩
      rw [if_pos hpx]
      omega
    · rcases List.mem_cons.mp hy with rfl | hy'
      · have h1 : 0 < t.countP p := List.countP_pos_iff.mpr ⟨x, hx', hpx⟩
        rw [if_pos hpy]
        omega
      · have := ih hx' hy'
        omega

/-- Appending an open row to a store with no open rows keeps the invariant,
for any new bound `t'` at least the inserted `start`. -/
theorem Inv.insert {t : Int} {s : Store} (h : Inv t s) (p : String)
    (task : Option String) {now t' : Int} (hnow : t < now) (ht' : now ≤ t')
    (hnoopen : ∀ r ∈ s.recs, r.stop ≠ none) :
    Inv t' (insertReg s p task now) := by
  obtain ⟨h1, h2, _h3, _h4⟩ := h
  refine ⟨?_, ?_, ?_, ?_⟩
  · intro r hr
    simp only [insertReg, List.mem_append, List.mem_singleton] at hr
    rcases hr with hr | rfl
    · have := h1 r hr
      exact ⟨by omega, by simp [insertReg]; omega⟩
    · exact ⟨ht', by simp [insertReg]⟩
  · simp only [insertReg]
    rw [List.pairwise_append]
    refine ⟨h2, List.pairwise_singleton _ _, ?_⟩
    intro a ha b hb
    rw [List.mem_singleton] at hb
    subst hb
    have := h1 a ha
    show a.id ≠ s.nextId ∧ a.start < now
    exact ⟨by omega, by omega⟩
  · unfold openCount
    simp only [insertReg]
    rw [List.countP_append]
    have h0 : s.recs.countP (fun r => r.stop.isNone) = 0 :=
      List.countP_eq_zero.mpr (fun a ha => by
        cases hstop : a.stop with
        | none => exact absurd hstop (hnoopen a ha)
        | some v => simp)
    simp [h0]
  · intro r hr hropen x hx hxr
    simp only [insertReg, List.mem_append, List.mem_singleton] at hr hx
    rcases hr with hr | rfl
    · exact absurd hropen (hnoopen r hr)
    · rcases hx with hx | rfl
      · have := (h1 x hx).1
        simp only []
        omega
      · exact absurd rfl hxr

/-- Closing the unique open row preserves the invariant and leaves no open
row. -/
theorem Inv.close {t now t' : Int} {s : Store} (h : Inv t s) (r : Record)
    (hr : r ∈ s.recs) (hopen : r.stop = none) (ht' : t ≤ t') :
    Inv t' (closeReg s r.id now) ∧
      ∀ x ∈ (closeReg s r.id now).recs, x.stop ≠ none := by
  obtain ⟨h1, h2, h3, _h4⟩ := h
  have hid : ∀ x : Record,
      ((if x.id = r.id then { x with stop := some now } else x) : Record).id
        = x.id := by
    intro x; by_cases hx : x.id = r.id <;> simp [hx]
  have hst : ∀ x : Record,
      ((if x.id = r.id then { x with stop := some now } else x) : Record).start
        = x.start := by
    intro x; by_cases hx : x.id = r.id <;> simp [hx]
  have hnoop : ∀ x ∈ (closeReg s r.id now).recs, x.stop ≠ none := by
    intro x hx
    simp only [closeReg, List.mem_map] at hx
    obtain ⟨y, hy, hxy⟩ := hx
    by_cases hyid : y.id = r.id
    · rw [if_pos hyid] at hxy
      rw [← hxy]
      simp
    · rw [if_neg hyid] at hxy
      subst hxy
      intro hynone
      have hyr : y = r := by
        by_contra hne
        have : 2 ≤ s.recs.countP (fun x => x.stop.isNone) :=
          two_le_countP _ _ y r hy hr hne (by simp [hynone]) (by simp [hopen])
        have := h3
        unfold openCount at this
        omega
      exact hyid (by rw [hyr])
  refine ⟨⟨?_, ?_, ?_, ?_⟩, hnoop⟩
  · intro x hx
    simp only [closeReg, List.mem_map] at hx
    obtain ⟨y, hy, hxy⟩ := hx
    have := h1 y hy
    rw [← hxy, hid, hst]
    exact ⟨by omega, by simp [closeReg]; omega⟩
  · simp only [closeReg]
    exact h2.map _ (fun a b hab => by rw [hid, hid, hst, hst]; exact hab)
  · unfold openCount
    have : ((closeReg s r.id now).recs).countP (fun x => x.stop.isNone) = 0 :=
      List.countP_eq_zero.mpr (fun a ha => by
        cases hstop : a.stop with
        | none => exact absurd hstop (hnoop a ha)
        | some v => simp)
    omega
  · intro x hx hxopen
    exact absurd hxopen (hnoop x hx)

theorem stop_step {t now : Int} {s : Store} (h : Inv t s) (hnow : t < now) :
    Inv now (stopCmd s now) := by
  by_cases hop : ∃ r ∈ s.recs, r.stop = none
  · obtain ⟨r, hr, hropen⟩ := hop
    have hsel : select_last s none = some r :=
      select_last_of_max s r hr (h.2.2.2 r hr hropen)
    have hcmd : stopCmd s now = closeReg s r.id now := by
      simp only [stopCmd, hsel, hropen]
    rw [hcmd]
    exact (Inv.close h r hr hropen (le_of_lt hnow)).1
  · push_neg at hop
    have hcmd : stopCmd s now = s := by
      cases hsel : select_last s none with
      | none => simp only [stopCmd, hsel]
      | some last =>
        have hmem := select_last_mem s last hsel
        cases hstop : last.stop with
        | none => exact absurd hstop (hop last hmem)
        | some v => simp only [stopCmd, hsel, hstop]
    rw [hcmd]
    exact h.mono (le_of_lt hnow)

theorem start_step {t now nowStop : Int} {s : Store} (h : Inv t s)
    (hnow : t < now) (hns : now ≤ nowStop) (p task : String)
    (confirm : Bool) :
    Inv nowStop (startCmd s p task now nowStop confirm) := by
  by_cases hop : ∃ r ∈ s.recs, r.stop = none
  · obtain ⟨r, hr, hropen⟩ := hop
    have hsel : select_last s none = some r :=
      select_last_of_max s r hr (h.2.2.2 r hr hropen)
    cases confirm with
    | false =>
      have hcmd : startCmd s p task now nowStop false = s := by
        simp [startCmd, hsel, hropen]
      rw [hcmd]
      exact h.mono (by omega)
    | true =>
      have hstop : stopCmd s nowStop = closeReg s r.id nowStop := by
        simp only [stopCmd, hsel, hropen]
      have hcmd : startCmd s p task now nowStop true =
          insertReg (closeReg s r.id nowStop) p (some task) now := by
        simp [startCmd, hsel, hropen, hstop]
      rw [hcmd]
      obtain ⟨hc, hnoop⟩ := Inv.close h r hr hropen (le_refl t)
      exact hc.insert p (some task) hnow hns hnoop
  · push_neg at hop
    have hcmd : startCmd s p task now nowStop confirm =
        insertReg s p (some task) now := by
      cases hsel : select_last s none with
      | none => simp only [startCmd, hsel]
      | some last =>
        have hmem := select_last_mem s last hsel
        have hne := hop last hmem
        simp only [startCmd, hsel]
        rw [if_neg hne]
    rw [hcmd]
    exact h.insert p (some task) hnow hns hop

theorem runCmds_inv : ∀ (cmds : List Cmd) (t : Int) (s : Store),
    Inv t s → Chrono t cmds → ∃ t', Inv t' (runCmds s cmds)
  | [], t, _, h, _ => ⟨t, h⟩
  | .start p k now nowStop c :: cs, _, s, h, hc =>
    runCmds_inv cs nowStop (startCmd s p k now nowStop c)
      (start_step h hc.1 hc.2.1 p k c) hc.2.2
  | .stop now :: cs, _, s, h, hc =>
    runCmds_inv cs now (stopCmd s now) (stop_step h hc.1) hc.2

/-- C1: starting from the initialized empty store, after any sequence of
`start`/`stop` commands (confirmations accepted or declined) executed under a
forward-moving clock, the number of records with `stop = null` is 0 or 1. -/
theorem C1_open_invariant (cmds : List Cmd) (t : Int) (h : Chrono t cmds) :
    openCount (runCmds Store.empty cmds) = 0 ∨
      openCount (runCmds Store.empty cmds) = 1 := by
  have hinv : Inv t Store.empty := by
    refine ⟨?_, ?_, ?_, ?_⟩ <;> simp [Store.empty, openCount]
  obtain ⟨t', h'⟩ := runCmds_inv cmds t Store.empty hinv h
  have := h'.2.2.1
  omega

/-- A command sequence exercising: plain start, start over an open interval
with confirmation accepted, start with confirmation declined, and stop. -/
def cmds1 : List Cmd :=
  [.start "a" "x" 1 1 true, .start "b" "y" 2 3 true,
   .start "c" "z" 4 5 false, .stop 6]

theorem C1_open_invariant_witness :
    Chrono 0 cmds1 ∧
    (openCount (runCmds Store.empty cmds1) = 0 ∨
      openCount (runCmds Store.empty cmds1) = 1) :=
  ⟨by decide, C1_open_invariant cmds1 0 (by decide)⟩

/-! ### Lexicographic string comparison and a structural insertion sort

Python's `sorted` compares strings lexicographically by code point.  The
comparator below is structurally recursive (so concrete witnesses evaluate in
the kernel) and is proved equivalent to the standard lexicographic order on
`String`. -/

/-- Lexicographic ≤ on char lists by code point. -/
def charListLe : List Char → List Char → Bool
  | [], _ => true
  | _ :: _, [] => false
  | a :: as, b :: bs => if a = b then charListLe as bs else decide (a < b)

theorem charListLe_iff :
    ∀ as bs : List Char, charListLe as bs = true ↔ ¬bs < as
  | [], bs => by
    simp only [charListLe]
    constructor
    · intro _ h
      exact List.Lex.not_nil_right _ _ h
    · intro _
      trivial
  | a :: as, [] => by
    simp only [charListLe]
    constructor
    · intro h
      exact absurd h (by simp)
    · intro h
      exact absurd (List.nil_lt_cons a as) h
  | a :: as, b :: bs => by
    simp only [charListLe]
    by_cases hab : a = b
    · subst hab
      rw [if_pos rfl]
      rw [charListLe_iff as bs]
      constructor
      · intro h hlt
        cases hlt with
        | cons h' => exact h h'
        | rel h' => exact absurd h' (lt_irrefl a)
      · intro h hlt
        exact h (List.Lex.cons hlt)
    · rw [if_neg hab]
      rcases lt_or_gt_of_ne hab with hlt | hgt
      · constructor
        · intro _ h
          cases h with
          | cons h' => exact absurd rfl hab
          | rel h' => exact absurd h' (asymm hlt)
        · intro _
          simp [hlt]
      · constructor
        · intro h
          rw [decide_eq_true_eq] at h
          exact absurd h (asymm hgt)
        · intro h
          exact absurd (List.Lex.rel (show b < a from hgt)) h

/-- Lexicographic ≤ on strings, as Python compares them. -/
def strLeB (a b : String) : Bool := charListLe a.toList b.toList

theorem strLeB_iff (a b : String) : strLeB a b = true ↔ a ≤ b := by
  rw [String.le_iff_toList_le, ← not_lt]
  exact charListLe_iff a.toList b.toList

theorem strLeB_total (a b : String) : strLeB a b = true ∨ strLeB b a = true :=
  (le_total a b).imp (strLeB_iff a b).mpr (strLeB_iff b a).mpr

theorem strLeB_trans (a b c : String) (h1 : strLeB a b = true)
    (h2 : strLeB b c = true) : strLeB a c = true :=
  (strLeB_iff a c).mpr (le_trans ((strLeB_iff a b).mp h1) ((strLeB_iff b c).mp h2))

/-- Insertion step of a stable insertion sort over a boolean comparator. -/
def orderedInsertB (le : α → α → Bool) (a : α) : List α → List α
  | [] => [a]
  | b :: l => if le a b then a :: b :: l else b :: orderedInsertB le a l

/-- Structural insertion sort over a boolean comparator, modelling Python's
stable `sorted`. -/
def insertionSortB (le : α → α → Bool) : List α → List α
  | [] => []
  | a :: l => orderedInsertB le a (insertionSortB le l)

theorem orderedInsertB_perm (le : α → α → Bool) (a : α) (l : List α) :
    List.Perm (orderedInsertB le a l) (a :: l) := by
  induction l with
  | nil => exact List.Perm.refl _
  | cons b t ih =>
    simp only [orderedInsertB]
    split
    · exact List.Perm.refl _
    · exact (ih.cons b).trans (List.Perm.swap a b t)

theorem insertionSortB_perm (le : α → α → Bool) (l : List α) :
    List.Perm (insertionSortB le l) l := by
  induction l with
  | nil => exact List.Perm.refl _
  | cons a t ih =>
    exact (orderedInsertB_perm le a (insertionSortB le t)).trans (ih.cons a)

theorem mem_orderedInsertB (le : α → α → Bool) (a x : α) (l : List α) :
    x ∈ orderedInsertB le a l ↔ x = a ∨ x ∈ l := by
  rw [(orderedInsertB_perm le a l).mem_iff, List.mem_cons]

theorem sorted_orderedInsertB (le : α → α → Bool)
    (htot : ∀ a b, le a b = true ∨ le b a = true)
    (htrans : ∀ a b c, le a b = true → le b c = true → le a c = true)
    (a : α) (l : List α) (h : l.Pairwise (fun x y => le x y = true)) :
    (orderedInsertB le a l).Pairwise (fun x y => le x y = true) := by
  induction l with
  | nil => exact List.pairwise_singleton _ _
  | cons b t ih =>
    obtain ⟨hb, ht⟩ := List.pairwise_cons.mp h
    simp only [orderedInsertB]
    split
    · rename_i hab
      rw [List.pairwise_cons]
      refine ⟨?_, h⟩
      intro x hx
      rcases List.mem_cons.mp hx with rfl | hx'
      · exact hab
      · exact htrans a b x hab (hb x hx')
    · rename_i hab
      rw [List.pairwise_cons]
      refine ⟨?_, ih ht⟩
      intro x hx
      rcases (mem_orderedInsertB le a x t).mp hx with rfl | hx'
      · rcases htot x b with h' | h'
        · exact absurd h' hab
        · exact h'
      · exact hb x hx'

theorem sorted_insertionSortB (le : α → α → Bool)
    (htot : ∀ a b, le a b = true ∨ le b a = true)
    (htrans : ∀ a b c, le a b = true → le b c = true → le a c = true)
    (l : List α) :
    (insertionSortB le l).Pairwise (fun x y => le x y = true) := by
  induction l with
  | nil => exact List.Pairwise.nil
  | cons a t ih => exact sorted_orderedInsertB le htot htrans a _ ih

/-! ### C8: the `info` command -/

/-- The distinct project names in the order `info` renders them:
`SELECT DISTINCT project FROM reg`, then Python `sorted(...)`
(main.py:173,177). -/
def infoProjects (s : Store) : List String :=
  insertionSortB strLeB ((s.recs.map (fun r => r.project)).dedup)

/-- The four lines printed by `info` (main.py:167-177): version, database
path, `SELECT COUNT(*) FROM reg`, and the sorted comma-joined distinct project
names.  `version` and `dbPath` are environment inputs. -/
def infoLines (s : Store) (version dbPath : String) : List String :=
  ["Version: " ++ version,
   "Database path: " ++ dbPath,
   "Tasks registered: " ++ toString s.recs.length,
   "Projects: " ++ String.intercalate ", " (infoProjects s)]

/-- The number of distinct projects in the store (what the claim says `info`
prints — it does not). -/
def distinctProjectCount (s : Store) : Nat :=
  (s.recs.map (fun r => r.project)).dedup.length

def charsInfix (pat : List Char) : List Char → Bool
  | [] => pat.isEmpty
  | c :: rest => pat.isPrefixOf (c :: rest) || charsInfix pat rest

/-- Substring test, used to state "the output includes the number N". -/
def strContainsSub (sub s : String) : Bool := charsInfix sub.toList s.toList

/-- Three records over two distinct projects. -/
def s8 : Store :=
  ⟨[⟨1, "a", some "t", 0, some 1⟩, ⟨2, "a", some "u", 2, some 3⟩,
    ⟨3, "b", some "v", 4, some 5⟩], 4⟩

/-- C8 counterexample: `info` prints the distinct project *names*, never their
*count*.  For the store `s8` (3 records, 2 distinct projects) no output line
contains the digit string "2" anywhere, so the output does not include the
count of distinct projects. -/
theorem C8_counterexample :
    distinctProjectCount s8 = 2 ∧
    (infoLines s8 "v" "p").all
      (fun l => !strContainsSub (toString (distinctProjectCount s8)) l)
      = true := by decide

/-- C8 (amended): for every store state, `info`'s output consists of exactly
four lines: the program version, the storage path, the total count of records
in the store, and the comma-joined list of distinct project names — each
project appearing in the store listed exactly once, in strictly increasing
lexicographic order (not the numeric count of distinct projects). -/
theorem C8_info_output (s : Store) (version dbPath : String) :
    infoLines s version dbPath =
      ["Version: " ++ version,
       "Database path: " ++ dbPath,
       "Tasks registered: " ++ toString s.recs.length,
       "Projects: " ++ String.intercalate ", " (infoProjects s)] ∧
    (∀ p, p ∈ infoProjects s ↔ ∃ r ∈ s.recs, r.project = p) ∧
    (infoProjects s).Pairwise (fun a b => a < b) := by
  refine ⟨rfl, ?_, ?_⟩
  · intro p
    constructor
    · intro hp
      have hmem := (List.Perm.mem_iff (insertionSortB_perm _ _)).mp hp
      rw [List.mem_dedup] at hmem
      obtain ⟨r, hr, hrp⟩ := List.mem_map.mp hmem
      exact ⟨r, hr, hrp⟩
    · rintro ⟨r, hr, rfl⟩
      apply (List.Perm.mem_iff (insertionSortB_perm _ _)).mpr
      rw [List.mem_dedup]
      exact List.mem_map_of_mem _ hr
  · have hs : (infoProjects s).Pairwise (fun a b => strLeB a b = true) :=
      sorted_insertionSortB strLeB strLeB_total strLeB_trans _
    have hn : (infoProjects s).Pairwise (· ≠ ·) :=
      (insertionSortB_perm _ _).nodup_iff.mpr (List.nodup_dedup _)
    exact (hs.and hn).imp
      (fun h => lt_of_le_of_ne ((strLeB_iff _ _).mp h.1) h.2)

/-! ### Calendar arithmetic for the day/week/month queries

`select_day`/`select_week`/`select_month` work on the civil UTC date of the
`start` timestamp (sqlite `date(start,'unixepoch')` / `strftime`), and on
Python `datetime.date` arithmetic.  Dates are civil (year, month, day)
triples; epoch↔civil conversion follows the standard proleptic-Gregorian
algorithm (the one sqlite implements via its Julian-day arithmetic). -/

/-- A civil (proleptic Gregorian, UTC) calendar date. -/
structure Date where
  year : Int
  month : Nat
  day : Nat
deriving DecidableEq, Repr

/-- Gregorian leap year. -/
def isLeap (y : Int) : Bool :=
  decide ((y % 4 = 0 ∧ y % 100 ≠ 0) ∨ y % 400 = 0)

def daysInMonth (y : Int) (m : Nat) : Nat :=
  if m = 2 then (if isLeap y then 29 else 28)
  else if m = 4 ∨ m = 6 ∨ m = 9 ∨ m = 11 then 30
  else 31

def ValidDate (d : Date) : Prop :=
  1 ≤ d.month ∧ d.month ≤ 12 ∧ 1 ≤ d.day ∧ d.day ≤ daysInMonth d.year d.month

instance (d : Date) : Decidable (ValidDate d) :=
  inferInstanceAs (Decidable (_ ∧ _ ∧ _ ∧ _))

/-- Python `date - timedelta(days=1)`: civil decrement by one day. -/
def dateSubOneDay (d : Date) : Date :=
  if 2 ≤ d.day then ⟨d.year, d.month, d.day - 1⟩
  else if 2 ≤ d.month then ⟨d.year, d.month - 1, daysInMonth d.year (d.month - 1)⟩
  else ⟨d.year - 1, 12, 31⟩

/-- Python `date + timedelta(days=1)`: civil increment by one day. -/
def dateAddOneDay (d : Date) : Date :=
  if d.day < daysInMonth d.year d.month then ⟨d.year, d.month, d.day + 1⟩
  else if d.month < 12 then ⟨d.year, d.month + 1, 1⟩
  else ⟨d.year + 1, 1, 1⟩

/-- Python `date - timedelta(days=n)`. -/
def dateSubDays (d : Date) : Nat → Date
  | 0 => d
  | n + 1 => dateSubDays (dateSubOneDay d) n

/-- Python `date + timedelta(days=n)`. -/
def dateAddDays (d : Date) : Nat → Date
  | 0 => d
  | n + 1 => dateAddDays (dateAddOneDay d) n

/-- The year used by the day-count algorithm (shifted back by one for January
and February). -/
def yShift (dt : Date) : Int :=
  if (dt.month : Int) ≤ 2 then dt.year - 1 else dt.year

/-- Month index counted from March. -/
def mpOf (dt : Date) : Int :=
  if (dt.month : Int) ≤ 2 then (dt.month : Int) + 9 else (dt.month : Int) - 3

/-- Day of the March-based year. -/
def doyOf (dt : Date) : Int :=
  (153 * mpOf dt + 2) / 5 + (dt.day : Int) - 1

/-- Year of the 400-year era. -/
def yoeOf (dt : Date) : Int := yShift dt - yShift dt / 400 * 400

/-- `days_from_civil`: days since 1970-01-01 of a civil date (the inverse of
what sqlite's `date(x,'unixepoch')` computes). -/
def civilToDays (dt : Date) : Int :=
  yShift dt / 400 * 146097 +
    (yoeOf dt * 365 + yoeOf dt / 4 - yoeOf dt / 100 +
      doyOf dt) - 719468

/-- `civil_from_days`: the civil date of a day count since 1970-01-01 (what
sqlite's `date(x,'unixepoch')` computes). -/
def civilFromDays (z : Int) : Date :=
  let z' : Int := z + 719468
  let era : Int := z' / 146097
  let doe : Int := z' - era * 146097
  let yoe : Int := (doe - doe / 1460 + doe / 36524 - doe / 146096) / 365
  let y : Int := yoe + era * 400
  let doy : Int := doe - (365 * yoe + yoe / 4 - yoe / 100)
  let mp : Int := (5 * doy + 2) / 153
  let d : Int := doy - (153 * mp + 2) / 5 + 1
  let m : Int := if mp < 10 then mp + 3 else mp - 9
  ⟨if m ≤ 2 then y + 1 else y, m.toNat, d.toNat⟩

/-- The civil UTC date of an epoch timestamp: sqlite `date(t,'unixepoch')`. -/
def epochDate (t : Int) : Date := civilFromDays (t / 86400)

/-- Python `date.weekday()`: 0 for Monday … 6 for Sunday.  1970-01-01 (day 0)
was a Thursday (3). -/
def pyWeekday (d : Date) : Int := (civilToDays d + 3) % 7

/-- Lexicographic (= chronological, and = sqlite ISO-string) order on civil
dates. -/
def dateLe (a b : Date) : Prop :=
  a.year < b.year ∨ (a.year = b.year ∧
    (a.month < b.month ∨ (a.month = b.month ∧ a.day ≤ b.day)))

instance (a b : Date) : Decidable (dateLe a b) :=
  inferInstanceAs (Decidable (_ ∨ _))

/-- `select_day` (main.py:120-129): records whose `start` falls on the date
`offset` days before today (`WHERE date(start,'unixepoch') = ?`). -/
def select_day (today : Date) (offset : Nat) (s : Store) : List Record :=
  s.recs.filter (fun r => epochDate r.start == dateSubDays today offset)

/-- `select_week` (main.py:132-143): records whose `start` date lies between
the Monday of the week `offset` weeks back and that Monday plus six days
(`WHERE date(start,'unixepoch') BETWEEN ? AND ?`, ISO strings comparing
lexicographically). -/
def select_week (today : Date) (offset : Nat) (s : Store) : List Record :=
  let wk := dateSubDays today (7 * offset)
  let st := dateSubDays wk (pyWeekday wk).toNat
  let en := dateAddDays st 6
  s.recs.filter (fun r =>
    decide (dateLe st (epochDate r.start)) &&
      decide (dateLe (epochDate r.start) en))

/-- One iteration of `select_month`'s loop (main.py:148-151): the first of the
current month minus one day, i.e. the last day of the previous month. -/
def monthStep (d : Date) : Date := dateSubOneDay ⟨d.year, d.month, 1⟩

/-- `query_date` after the loop ran `offset` times. -/
def monthQueryDate (d : Date) : Nat → Date
  | 0 => d
  | n + 1 => monthQueryDate (monthStep d) n

/-- `select_month` (main.py:146-157): records whose `start` falls in the
query date's calendar month (`WHERE strftime('%Y-%m', start, 'unixepoch') =
?`). -/
def select_month (today : Date) (offset : Nat) (s : Store) : List Record :=
  s.recs.filter (fun r =>
    ((epochDate r.start).year == (monthQueryDate today offset).year) &&
      ((epochDate r.start).month == (monthQueryDate today offset).month))

/-- Linear month index of a date (months since year 0). -/
def ymIndex (d : Date) : Int := d.year * 12 + ((d.month : Int) - 1)

/-! ### Facts about civil date arithmetic -/

theorem daysInMonth_bounds (y : Int) (m : Nat) :
    28 ≤ daysInMonth y m ∧ daysInMonth y m ≤ 31 := by
  unfold daysInMonth
  split_ifs <;> omega

theorem dateSubOneDay_valid (d : Date) (h : ValidDate d) :
    ValidDate (dateSubOneDay d) := by
  obtain ⟨h1, h2, h3, h4⟩ := h
  unfold dateSubOneDay
  by_cases hd : 2 ≤ d.day
  · rw [if_pos hd]
    show 1 ≤ d.month ∧ d.month ≤ 12 ∧ 1 ≤ d.day - 1 ∧
      d.day - 1 ≤ daysInMonth d.year d.month
    exact ⟨h1, h2, by omega, by omega⟩
  · by_cases hm : 2 ≤ d.month
    · rw [if_neg hd, if_pos hm]
      show 1 ≤ d.month - 1 ∧ d.month - 1 ≤ 12 ∧
        1 ≤ daysInMonth d.year (d.month - 1) ∧
        daysInMonth d.year (d.month - 1) ≤ daysInMonth d.year (d.month - 1)
      have := daysInMonth_bounds d.year (d.month - 1)
      exact ⟨by omega, by omega, by omega, le_refl _⟩
    · rw [if_neg hd, if_neg hm]
      show 1 ≤ 12 ∧ 12 ≤ 12 ∧ 1 ≤ 31 ∧ 31 ≤ daysInMonth (d.year - 1) 12
      exact ⟨by omega, by omega, by omega, by simp [daysInMonth]⟩

theorem dateAddOneDay_valid (d : Date) (h : ValidDate d) :
    ValidDate (dateAddOneDay d) := by
  obtain ⟨h1, h2, h3, h4⟩ := h
  unfold dateAddOneDay
  by_cases hd : d.day < daysInMonth d.year d.month
  · rw [if_pos hd]
    show 1 ≤ d.month ∧ d.month ≤ 12 ∧ 1 ≤ d.day + 1 ∧
      d.day + 1 ≤ daysInMonth d.year d.month
    exact ⟨h1, h2, by omega, by omega⟩
  · by_cases hm : d.month < 12
    · rw [if_neg hd, if_pos hm]
      show 1 ≤ d.month + 1 ∧ d.month + 1 ≤ 12 ∧ 1 ≤ 1 ∧
        1 ≤ daysInMonth d.year (d.month + 1)
      have := daysInMonth_bounds d.year (d.month + 1)
      exact ⟨by omega, by omega, le_refl _, by omega⟩
    · rw [if_neg hd, if_neg hm]
      show 1 ≤ 1 ∧ 1 ≤ 12 ∧ 1 ≤ 1 ∧ 1 ≤ daysInMonth (d.year + 1) 1
      have := daysInMonth_bounds (d.year + 1) 1
      exact ⟨le_refl _, by omega, le_refl _, by omega⟩

theorem civilToDays_sub_one (d : Date) (h : ValidDate d) :
    civilToDays (dateSubOneDay d) = civilToDays d - 1 := by
  obtain ⟨y, m, day⟩ := d
  obtain ⟨h1, h2, h3, h4⟩ := h
  simp only at h1 h2 h3 h4
  simp only [dateSubOneDay]
  by_cases hd : 2 ≤ day
  · rw [if_pos hd]
    simp only [civilToDays, yoeOf, yShift, doyOf, mpOf]
    by_cases hm2 : (m : Int) ≤ 2
    · simp only [if_pos hm2]
      omega
    · simp only [if_neg hm2]
      omega
  · have hday : day = 1 := by omega
    subst hday
    by_cases hm : 2 ≤ m
    · rw [if_neg hd, if_pos hm]
      interval_cases m <;>
        simp only [civilToDays, yoeOf, yShift, doyOf, mpOf, daysInMonth,
          isLeap] <;>
        norm_num <;>
        omega
    · have hm1 : m = 1 := by omega
      subst hm1
      rw [if_neg hd, if_neg hm]
      simp only [civilToDays, yoeOf, yShift, doyOf, mpOf]
      norm_num
      omega

theorem civilToDays_add_one (d : Date) (h : ValidDate d) :
    civilToDays (dateAddOneDay d) = civilToDays d + 1 := by
  obtain ⟨y, m, day⟩ := d
  obtain ⟨h1, h2, h3, h4⟩ := h
  simp only at h1 h2 h3 h4
  simp only [dateAddOneDay]
  by_cases hd : day < daysInMonth y m
  · rw [if_pos hd]
    simp only [civilToDays, yoeOf, yShift, doyOf, mpOf]
    by_cases hm2 : (m : Int) ≤ 2
    · simp only [if_pos hm2]
      omega
    · simp only [if_neg hm2]
      omega
  · have hday : day = daysInMonth y m := by omega
    by_cases hm : m < 12
    · rw [if_neg hd, if_pos hm]
      subst hday
      interval_cases m <;>
        simp only [civilToDays, yoeOf, yShift, doyOf, mpOf, daysInMonth,
          isLeap] <;>
        norm_num <;>
        omega
    · have hm12 : m = 12 := by omega
      subst hm12
      have hday31 : day = 31 := by
        simp only [daysInMonth] at hday
        norm_num at hday
        exact hday
      subst hday31
      rw [if_neg hd, if_neg hm]
      simp only [civilToDays, yoeOf, yShift, doyOf, mpOf]
      norm_num
      omega

theorem dateSubDays_spec (n : Nat) : ∀ d : Date, ValidDate d →
    civilToDays (dateSubDays d n) = civilToDays d - n ∧
      ValidDate (dateSubDays d n) := by
  induction n with
  | zero =>
    intro d h
    exact ⟨by simp [dateSubDays], h⟩
  | succ k ih =>
    intro d h
    have hv := dateSubOneDay_valid d h
    have h1 := civilToDays_sub_one d h
    obtain ⟨ha, hb⟩ := ih (dateSubOneDay d) hv
    refine ⟨?_, hb⟩
    show civilToDays (dateSubDays (dateSubOneDay d) k) = _
    rw [ha, h1]
    push_cast
    ring

theorem dateAddDays_spec (n : Nat) : ∀ d : Date, ValidDate d →
    civilToDays (dateAddDays d n) = civilToDays d + n ∧
      ValidDate (dateAddDays d n) := by
  induction n with
  | zero =>
    intro d h
    exact ⟨by simp [dateAddDays], h⟩
  | succ k ih =>
    intro d h
    have hv := dateAddOneDay_valid d h
    have h1 := civilToDays_add_one d h
    obtain ⟨ha, hb⟩ := ih (dateAddOneDay d) hv
    refine ⟨?_, hb⟩
    show civilToDays (dateAddDays (dateAddOneDay d) k) = _
    rw [ha, h1]
    push_cast
    ring

theorem dateLe_refl (d : Date) : dateLe d d :=
  Or.inr ⟨rfl, Or.inr ⟨rfl, le_refl _⟩⟩

theorem dateLe_trans {a b c : Date} (h1 : dateLe a b) (h2 : dateLe b c) :
    dateLe a c := by
  unfold dateLe at *
  omega

theorem dateLe_addOne (d : Date) : dateLe d (dateAddOneDay d) := by
  unfold dateAddOneDay dateLe
  split_ifs <;> simp

theorem dateLe_addDays (d : Date) (n : Nat) : dateLe d (dateAddDays d n) := by
  induction n generalizing d with
  | zero => exact dateLe_refl d
  | succ k ih => exact dateLe_trans (dateLe_addOne d) (ih (dateAddOneDay d))

theorem pyWeekday_monday (today : Date) (h : ValidDate today) :
    pyWeekday (dateSubDays today (pyWeekday today).toNat) = 0 := by
  obtain ⟨ha, _⟩ := dateSubDays_spec (pyWeekday today).toNat today h
  unfold pyWeekday at *
  rw [ha]
  omega

theorem pyWeekday_sunday (today : Date) (h : ValidDate today) :
    pyWeekday (dateAddDays (dateSubDays today (pyWeekday today).toNat) 6)
      = 6 := by
  obtain ⟨ha, hv⟩ := dateSubDays_spec (pyWeekday today).toNat today h
  obtain ⟨hb, _⟩ := dateAddDays_spec 6 _ hv
  unfold pyWeekday at *
  rw [hb, ha]
  omega

/-! ### C6: the month query walks back whole calendar months -/

theorem monthStep_index (d : Date) (h1 : 1 ≤ d.month) (h2 : d.month ≤ 12) :
    ymIndex (monthStep d) = ymIndex d - 1 ∧
      1 ≤ (monthStep d).month ∧ (monthStep d).month ≤ 12 := by
  simp only [monthStep, dateSubOneDay, ymIndex]
  norm_num
  by_cases hm : 2 ≤ d.month
  · rw [if_pos hm]
    simp only
    refine ⟨?_, by omega, by omega⟩
    omega
  · have hm1 : d.month = 1 := by omega
    rw [if_neg hm]
    simp only
    refine ⟨?_, by omega, by omega⟩
    omega

theorem monthQueryDate_index (offset : Nat) : ∀ d : Date,
    1 ≤ d.month → d.month ≤ 12 →
    ymIndex (monthQueryDate d offset) = ymIndex d - offset ∧
      1 ≤ (monthQueryDate d offset).month ∧
      (monthQueryDate d offset).month ≤ 12 := by
  induction offset with
  | zero =>
    intro d h1 h2
    exact ⟨by simp [monthQueryDate], h1, h2⟩
  | succ k ih =>
    intro d h1 h2
    obtain ⟨hs, hm1, hm2⟩ := monthStep_index d h1 h2
    obtain ⟨ha, hb, hc⟩ := ih (monthStep d) hm1 hm2
    refine ⟨?_, hb, hc⟩
    show ymIndex (monthQueryDate (monthStep d) k) = _
    rw [ha, hs]
    push_cast
    ring

/-- C6: for every offset, the month query's target month is exactly the
calendar month `offset` whole months before the current one — expressed
through the linear month index `year*12 + (month-1)`, which makes variable
month lengths and year rollover explicit — and `select_month` filters the
records whose `start` falls in that month. -/
theorem C6_month_walk (today : Date) (h1 : 1 ≤ today.month)
    (h2 : today.month ≤ 12) (offset : Nat) (s : Store) :
    (monthQueryDate today offset).year = (ymIndex today - offset) / 12 ∧
    (monthQueryDate today offset).month =
      ((ymIndex today - offset) % 12).toNat + 1 ∧
    select_month today offset s = s.recs.filter (fun r =>
      ((epochDate r.start).year == (ymIndex today - offset) / 12) &&
      ((epochDate r.start).month ==
        ((ymIndex today - offset) % 12).toNat + 1)) := by
  obtain ⟨ha, hb, hc⟩ := monthQueryDate_index offset today h1 h2
  have hyear : (monthQueryDate today offset).year =
      (ymIndex today - offset) / 12 := by
    simp only [ymIndex] at ha ⊢
    omega
  have hmonth : (monthQueryDate today offset).month =
      ((ymIndex today - offset) % 12).toNat + 1 := by
    simp only [ymIndex] at ha ⊢
    omega
  refine ⟨hyear, hmonth, ?_⟩
  unfold select_month
  simp only [hyear, hmonth]

/-- A store with one record, used by the C6 witness. -/
def s6 : Store := ⟨[⟨1, "p", some "t", 1764979200, none⟩], 2⟩

theorem C6_month_walk_witness :
    (1 ≤ (⟨2026, 1, 15⟩ : Date).month ∧ (⟨2026, 1, 15⟩ : Date).month ≤ 12) ∧
    ((monthQueryDate ⟨2026, 1, 15⟩ 1).year =
        (ymIndex ⟨2026, 1, 15⟩ - (1 : Nat)) / 12 ∧
      (monthQueryDate ⟨2026, 1, 15⟩ 1).month =
        ((ymIndex ⟨2026, 1, 15⟩ - (1 : Nat)) % 12).toNat + 1 ∧
      select_month ⟨2026, 1, 15⟩ 1 s6 = s6.recs.filter (fun r =>
        ((epochDate r.start).year == (ymIndex ⟨2026, 1, 15⟩ - (1 : Nat)) / 12) &&
        ((epochDate r.start).month ==
          ((ymIndex ⟨2026, 1, 15⟩ - (1 : Nat)) % 12).toNat + 1))) :=
  ⟨⟨by decide, by decide⟩,
    C6_month_walk ⟨2026, 1, 15⟩ (by decide) (by decide) 1 s6⟩

/-! ### C7: day and week bucketing use the calendar date of `start` -/

/-- C7: (a) a record is in the day query for offset `o` exactly when the
calendar date of its `start` is today minus `o` days (only the date component
of `start` matters); (b) the day queries for two different dates are disjoint;
(c) the week query with offset 0 starts on the Monday of today's ISO week
(weekday 0) and ends on its Sunday (weekday 6), and records starting on that
Monday or that Sunday are both in it. -/
theorem C7_day_week_bucketing (today : Date) (hv : ValidDate today)
    (s : Store) :
    (∀ (o : Nat) (r : Record),
        r ∈ select_day today o s ↔
          r ∈ s.recs ∧ epochDate r.start = dateSubDays today o) ∧
    (∀ (o₁ o₂ : Nat) (r : Record), o₁ ≠ o₂ →
        r ∈ select_day today o₁ s → r ∉ select_day today o₂ s) ∧
    (pyWeekday (dateSubDays today (pyWeekday today).toNat) = 0 ∧
     pyWeekday (dateAddDays (dateSubDays today (pyWeekday today).toNat) 6)
        = 6 ∧
     ∀ r ∈ s.recs,
       (epochDate r.start = dateSubDays today (pyWeekday today).toNat ∨
        epochDate r.start =
          dateAddDays (dateSubDays today (pyWeekday today).toNat) 6) →
       r ∈ select_week today 0 s) := by
  refine ⟨?_, ?_, pyWeekday_monday today hv, pyWeekday_sunday today hv, ?_⟩
  · intro o r
    simp [select_day, List.mem_filter]
  · intro o₁ o₂ r hne hr1 hr2
    simp only [select_day, List.mem_filter, beq_iff_eq] at hr1 hr2
    have hdd : dateSubDays today o₁ = dateSubDays today o₂ :=
      hr1.2.symm.trans hr2.2
    have e1 := (dateSubDays_spec o₁ today hv).1
    have e2 := (dateSubDays_spec o₂ today hv).1
    have := congrArg civilToDays hdd
    omega
  · intro r hr hD
    simp only [select_week, Nat.mul_zero, dateSubDays, List.mem_filter]
    refine ⟨hr, ?_⟩
    rw [Bool.and_eq_true, decide_eq_true_eq, decide_eq_true_eq]
    rcases hD with hD | hD <;> rw [hD]
    · exact ⟨dateLe_refl _, dateLe_addDays _ 6⟩
    · exact ⟨dateLe_addDays _ 6, dateLe_refl _⟩

theorem C7_day_week_bucketing_witness :
    ValidDate ⟨2026, 10, 12⟩ ∧
    (∀ r : Record,
      r ∈ select_day ⟨2026, 10, 12⟩ 0 sOpen ↔
        r ∈ sOpen.recs ∧
          epochDate r.start = dateSubDays ⟨2026, 10, 12⟩ 0) :=
  ⟨by decide,
    fun r => (C7_day_week_bucketing ⟨2026, 10, 12⟩ (by decide) sOpen).1 0 r⟩

/-! ### C2: report aggregation

The `report` command (main.py:261-270) sorts the queried records by project,
groups consecutive equal projects with `itertools.groupby`, and inside each
group sums `stop - start` over records with a non-null `stop`, emitting a row
only when that list of durations is non-empty.  `aggregateSpec` re-states the
specification's wording (one row per project having a closed record, sorted
lexicographically, totalling closed durations); the claim theorem proves both
agree on every input list. -/

/-- Duration of a closed record (`r.stop - r.start`), `none` when open. -/
def closedDur (r : Record) : Option Int := r.stop.map (fun t => t - r.start)

/-- Comparator of `sorted(records, key=lambda x: x.project)`. -/
def recordLeB (a b : Record) : Bool := strLeB a.project b.project

/-- `sorted(records, key=lambda x: x.project)` (main.py:265). -/
def sortByProject (l : List Record) : List Record := insertionSortB recordLeB l

/-- `itertools.groupby(·, key=lambda x: x.project)`: consecutive runs of
equal project. -/
def groupRuns : List Record → List (List Record)
  | [] => []
  | r :: rs =>
    (r :: rs.takeWhile (fun x => x.project == r.project)) ::
      groupRuns (rs.dropWhile (fun x => x.project == r.project))
termination_by l => l.length
decreasing_by
  simp only [List.length_cons]
  have := (List.dropWhile_sublist (fun x => x.project == r.project)
    (l := rs)).length_le
  omega

/-- One row of the report table (main.py:266-269): `none` when the group has
no closed record. -/
def rowOfGroup (g : List Record) : Option (String × Int) :=
  match g with
  | [] => none
  | r :: _ =>
    if (g.filterMap closedDur).isEmpty then none
    else some (r.project, (g.filterMap closedDur).sum)

/-- The (project, total) rows of the report, in render order. -/
def reportRows (l : List Record) : List (String × Int) :=
  (groupRuns (sortByProject l)).filterMap rowOfGroup

/-- Spec wording: the total closed duration of project `p` in `l`. -/
def totalFor (l : List Record) (p : String) : Int :=
  ((l.filter (fun r => r.project == p)).filterMap closedDur).sum

/-- Spec wording: the projects having at least one closed record. -/
def closedProjects (l : List Record) : List String :=
  ((l.filter (fun r => r.stop.isSome)).map (fun r => r.project)).dedup

/-- The aggregation exactly as the spec words it: one `(project, total)` row
per project with a closed record, sorted lexicographically by project name. -/
def aggregateSpec (l : List Record) : List (String × Int) :=
  (insertionSortB strLeB (closedProjects l)).map (fun p => (p, totalFor l p))

theorem closedDur_eq_none (x : Record) :
    closedDur x = none ↔ x.stop.isSome = false := by
  cases h : x.stop <;> simp [closedDur, h]

theorem filterMap_closedDur_empty (g : List Record) :
    (g.filterMap closedDur).isEmpty = true ↔
      ∀ x ∈ g, x.stop.isSome = false := by
  rw [List.isEmpty_iff, List.filterMap_eq_nil_iff]
  simp only [closedDur_eq_none]

/-- In a sorted list whose head-bound is `a`, everything surviving
`dropWhile (project == a.project)` has a strictly larger project. -/
theorem dropWhile_gt_of_sorted (a : Record) :
    ∀ rs : List Record,
      (∀ x ∈ rs, strLeB a.project x.project = true) →
      rs.Pairwise (fun x y => strLeB x.project y.project = true) →
      ∀ x ∈ rs.dropWhile (fun y => y.project == a.project),
        a.project < x.project := by
  intro rs
  induction rs with
  | nil =>
    intro _ _ x hx
    simp at hx
  | cons b t ih =>
    intro hall hp x hx
    rw [List.dropWhile_cons] at hx
    by_cases hb : (b.project == a.project) = true
    · rw [if_pos hb] at hx
      exact ih (fun y hy => hall y (List.mem_cons_of_mem _ hy))
        (List.pairwise_cons.mp hp).2 x hx
    · rw [if_neg hb] at hx
      have hble : a.project ≤ b.project :=
        (strLeB_iff _ _).mp (hall b (List.mem_cons_self b t))
      have hbne : a.project ≠ b.project := fun h => hb (by simp [h])
      rcases List.mem_cons.mp hx with rfl | hxt
      · exact lt_of_le_of_ne hble hbne
      · have hbx : b.project ≤ x.project :=
          (strLeB_iff _ _).mp ((List.pairwise_cons.mp hp).1 x hxt)
        exact lt_of_lt_of_le (lt_of_le_of_ne hble hbne) hbx

theorem mem_takeWhile_pred {p : Record → Bool} :
    ∀ {l : List Record} {x : Record}, x ∈ l.takeWhile p → p x = true := by
  intro l
  induction l with
  | nil =>
    intro x hx
    simp at hx
  | cons a t ih =>
    intro x hx
    rw [List.takeWhile_cons] at hx
    by_cases ha : p a = true
    · rw [if_pos ha] at hx
      rcases List.mem_cons.mp hx with rfl | hxt
      · exact ha
      · exact ih hxt
    · rw [if_neg ha] at hx
      simp at hx

/-- Characterization of the report rows over an already-sorted record list:
the rows are exactly the pairs `(p, totalFor m p)` for projects `p` with a
closed record, and their keys are strictly increasing. -/
theorem rows_char : ∀ m : List Record,
    m.Pairwise (fun a b => strLeB a.project b.project = true) →
    ((∀ p t, ((p, t) ∈ (groupRuns m).filterMap rowOfGroup ↔
        ((∃ r ∈ m, r.project = p ∧ r.stop.isSome = true) ∧
          t = totalFor m p))) ∧
      ((groupRuns m).filterMap rowOfGroup).Pairwise
        (fun a b => a.1 < b.1)) := by
  intro m
  induction m using groupRuns.induct with
  | case1 =>
    intro _
    constructor
    · intro p t
      simp [groupRuns, totalFor]
    · simp [groupRuns]
  | case2 r rs ih =>
    intro hs
    obtain ⟨hhead, htail⟩ := List.pairwise_cons.mp hs
    have hdwsorted :
        (rs.dropWhile (fun y => y.project == r.project)).Pairwise
          (fun a b => strLeB a.project b.project = true) :=
      htail.sublist (List.dropWhile_sublist _)
    have hdwgt : ∀ x ∈ rs.dropWhile (fun y => y.project == r.project),
        r.project < x.project :=
      dropWhile_gt_of_sorted r rs hhead htail
    have hdwne : ∀ x ∈ rs.dropWhile (fun y => y.project == r.project),
        ¬ x.project = r.project := by
      intro x hx h
      have := hdwgt x hx
      rw [h] at this
      exact lt_irrefl _ this
    have htw : ∀ x ∈ rs.takeWhile (fun y => y.project == r.project),
        x.project = r.project := by
      intro x hx
      exact beq_iff_eq.mp (mem_takeWhile_pred hx)
    have hsplit : rs.takeWhile (fun y => y.project == r.project) ++
        rs.dropWhile (fun y => y.project == r.project) = rs := by
      rw [List.takeWhile_append_dropWhile]
    have hfilRun : rs.filter (fun x => x.project == r.project) =
        rs.takeWhile (fun x => x.project == r.project) := by
      conv_lhs => rw [← hsplit]
      rw [List.filter_append,
        List.filter_eq_self.mpr
          (fun a ha => by rw [beq_iff_eq]; exact htw a ha),
        List.filter_eq_nil_iff.mpr
          (fun a ha => by rw [beq_iff_eq]; exact hdwne a ha),
        List.append_nil]
    have htotR : totalFor (r :: rs) r.project =
        ((r :: rs.takeWhile (fun x => x.project == r.project)).filterMap
          closedDur).sum := by
      unfold totalFor
      rw [List.filter_cons_of_pos (by simp), hfilRun]
    have htotNe : ∀ p, ¬ p = r.project → totalFor (r :: rs) p =
        totalFor (rs.dropWhile (fun y => y.project == r.project)) p := by
      intro p hp
      unfold totalFor
      rw [List.filter_cons_of_neg
        (by rw [beq_iff_eq]; exact fun h => hp h.symm)]
      conv_lhs => rw [← hsplit]
      rw [List.filter_append,
        List.filter_eq_nil_iff.mpr (fun a ha => by
          rw [beq_iff_eq, htw a ha]
          exact fun h => hp h.symm),
        List.nil_append]
    have hexR : (∃ x ∈ r :: rs, x.project = r.project ∧
        x.stop.isSome = true) ↔
        (∃ x ∈ r :: rs.takeWhile (fun y => y.project == r.project),
          x.stop.isSome = true) := by
      constructor
      · rintro ⟨x, hx, hxp, hxs⟩
        rcases List.mem_cons.mp hx with rfl | hxrs
        · exact ⟨x, List.mem_cons_self _ _, hxs⟩
        · rw [← hsplit] at hxrs
          rcases List.mem_append.mp hxrs with h | h
          · exact ⟨x, List.mem_cons_of_mem _ h, hxs⟩
          · exact absurd hxp (hdwne x h)
      · rintro ⟨x, hx, hxs⟩
        rcases List.mem_cons.mp hx with rfl | hxtw
        · exact ⟨x, List.mem_cons_self _ _, rfl, hxs⟩
        · exact ⟨x,
            List.mem_cons_of_mem _ ((List.takeWhile_sublist _).subset hxtw),
            htw x hxtw, hxs⟩
    have hexNe : ∀ p, ¬ p = r.project →
        ((∃ x ∈ r :: rs, x.project = p ∧ x.stop.isSome = true) ↔
         (∃ x ∈ rs.dropWhile (fun y => y.project == r.project),
            x.project = p ∧ x.stop.isSome = true)) := by
      intro p hp
      constructor
      · rintro ⟨x, hx, hxp, hxs⟩
        rcases List.mem_cons.mp hx with rfl | hxrs
        · exact absurd hxp.symm hp
        · rw [← hsplit] at hxrs
          rcases List.mem_append.mp hxrs with h | h
          · refine absurd ?_ hp
            rw [← hxp]
            exact htw x h
          · exact ⟨x, h, hxp, hxs⟩
      · rintro ⟨x, hx, hxp, hxs⟩
        exact ⟨x,
          List.mem_cons_of_mem _ ((List.dropWhile_sublist _).subset hx),
          hxp, hxs⟩
    have hdsEmpty :
        ((r :: rs.takeWhile (fun y => y.project == r.project)).filterMap
          closedDur).isEmpty = true ↔
        ¬ (∃ x ∈ r :: rs, x.project = r.project ∧ x.stop.isSome = true) := by
      rw [filterMap_closedDur_empty]
      constructor
      · intro h hex
        obtain ⟨x, hx, hxs⟩ := hexR.mp hex
        rw [h x hx] at hxs
        exact absurd hxs (by simp)
      · intro h x hx
        by_contra hxs
        rw [Bool.not_eq_false] at hxs
        exact h (hexR.mpr ⟨x, hx, hxs⟩)
    obtain ⟨ihmem, ihsorted⟩ := ih hdwsorted
    by_cases hem : ((r :: rs.takeWhile (fun y => y.project == r.project)).filterMap
        closedDur).isEmpty = true
    · have hrow : rowOfGroup
          (r :: rs.takeWhile (fun y => y.project == r.project)) = none := by
        simp only [rowOfGroup]
        rw [if_pos hem]
      have hfm : List.filterMap rowOfGroup (groupRuns (r :: rs)) =
          List.filterMap rowOfGroup
            (groupRuns (rs.dropWhile (fun y => y.project == r.project))) := by
        rw [groupRuns, List.filterMap_cons, hrow]
      rw [hfm]
      constructor
      · intro p t
        rw [ihmem p t]
        by_cases hp : p = r.project
        · subst hp
          constructor
          · rintro ⟨⟨x, hx, hxp, hxs⟩, _⟩
            exact absurd hxp (hdwne x hx)
          · rintro ⟨hex, _⟩
            exact absurd hex (hdsEmpty.mp hem)
        · rw [htotNe p hp, hexNe p hp]
      · exact ihsorted
    · have hrow : rowOfGroup
          (r :: rs.takeWhile (fun y => y.project == r.project)) =
          some (r.project,
            ((r :: rs.takeWhile (fun y => y.project == r.project)).filterMap
              closedDur).sum) := by
        simp only [rowOfGroup]
        rw [if_neg hem]
      have hexVal : ∃ x ∈ r :: rs, x.project = r.project ∧
          x.stop.isSome = true := by
        by_contra h
        exact hem (hdsEmpty.mpr h)
      have hfm : List.filterMap rowOfGroup (groupRuns (r :: rs)) =
          (r.project,
            ((r :: rs.takeWhile (fun y => y.project == r.project)).filterMap
              closedDur).sum) ::
          List.filterMap rowOfGroup
            (groupRuns (rs.dropWhile (fun y => y.project == r.project))) := by
        rw [groupRuns, List.filterMap_cons, hrow]
      rw [hfm]
      constructor
      · intro p t
        rw [List.mem_cons, ihmem p t]
        by_cases hp : p = r.project
        · subst hp
          constructor
          · rintro (heq | ⟨⟨x, hx, hxp, _⟩, _⟩)
            · refine ⟨hexVal, ?_⟩
              rw [htotR]
              exact congrArg Prod.snd heq
            · exact absurd hxp (hdwne x hx)
          · rintro ⟨_, rfl⟩
            left
            rw [htotR]
        · constructor
          · rintro (heq | ⟨hex, rfl⟩)
            · exact absurd (congrArg Prod.fst heq) hp
            · exact ⟨(hexNe p hp).mpr hex, (htotNe p hp).symm⟩
          · rintro ⟨hex, rfl⟩
            right
            exact ⟨(hexNe p hp).mp hex, htotNe p hp⟩
      · rw [List.pairwise_cons]
        refine ⟨?_, ihsorted⟩
        rintro ⟨p, u⟩ hmem
        obtain ⟨⟨x, hx, hxp, _⟩, _⟩ := (ihmem p u).mp hmem
        show r.project < p
        rw [← hxp]
        exact hdwgt x hx

theorem totalFor_perm {l m : List Record} (h : List.Perm l m) (p : String) :
    totalFor l p = totalFor m p :=
  List.Perm.sum_eq ((h.filter _).filterMap _)

/-- The same characterization for the spec-side aggregation. -/
theorem spec_char (l : List Record) :
    (∀ p t, ((p, t) ∈ aggregateSpec l ↔
        ((∃ r ∈ l, r.project = p ∧ r.stop.isSome = true) ∧
          t = totalFor l p))) ∧
    (aggregateSpec l).Pairwise (fun a b => a.1 < b.1) := by
  constructor
  · intro p t
    unfold aggregateSpec
    rw [List.mem_map]
    constructor
    · rintro ⟨q, hq, heq⟩
      have hq1 : q = p := congrArg Prod.fst heq
      subst hq1
      have ht : t = totalFor l q := (congrArg Prod.snd heq).symm
      refine ⟨?_, ht⟩
      have hq' := (List.Perm.mem_iff (insertionSortB_perm _ _)).mp hq
      unfold closedProjects at hq'
      rw [List.mem_dedup, List.mem_map] at hq'
      obtain ⟨r, hrf, hrp⟩ := hq'
      rw [List.mem_filter] at hrf
      exact ⟨r, hrf.1, hrp, hrf.2⟩
    · rintro ⟨⟨r, hr, hrp, hrs⟩, rfl⟩
      refine ⟨p, ?_, rfl⟩
      apply (List.Perm.mem_iff (insertionSortB_perm _ _)).mpr
      unfold closedProjects
      rw [List.mem_dedup, List.mem_map]
      exact ⟨r, List.mem_filter.mpr ⟨hr, hrs⟩, hrp⟩
  · unfold aggregateSpec
    have hsor := sorted_insertionSortB strLeB strLeB_total strLeB_trans
      (closedProjects l)
    have hnd : (insertionSortB strLeB (closedProjects l)).Pairwise (· ≠ ·) :=
      (insertionSortB_perm _ _).nodup_iff.mpr (List.nodup_dedup _)
    have hlt := (hsor.and hnd).imp
      (fun h => lt_of_le_of_ne ((strLeB_iff _ _).mp h.1) h.2)
    rw [List.pairwise_map]
    exact hlt

/-- Two lists of rows with strictly increasing keys and the same members are
equal. -/
theorem eq_of_char {L1 L2 : List (String × Int)}
    (h1 : L1.Pairwise (fun a b => a.1 < b.1))
    (h2 : L2.Pairwise (fun a b => a.1 < b.1))
    (hmem : ∀ x, x ∈ L1 ↔ x ∈ L2) : L1 = L2 := by
  have hn1 : L1.Nodup := h1.imp (fun hab heq => by
    rw [heq] at hab
    exact lt_irrefl _ hab)
  have hn2 : L2.Nodup := h2.imp (fun hab heq => by
    rw [heq] at hab
    exact lt_irrefl _ hab)
  have hperm : List.Perm L1 L2 :=
    List.perm_of_nodup_nodup_toFinset_eq hn1 hn2
      (Finset.ext fun x => by
        rw [List.mem_toFinset, List.mem_toFinset]
        exact hmem x)
  haveI : IsAntisymm (String × Int) (fun a b => a.1 < b.1) :=
    ⟨fun a b hab hba => absurd (lt_trans hab hba) (lt_irrefl _)⟩
  exact List.eq_of_perm_of_sorted hperm h1 h2

/-- C2: for every input list of records, the report aggregation equals the
specification's aggregation — it groups records by exact project string, sums
`stop - start` over exactly the closed records (open ones silently excluded),
omits projects with no closed record, and emits one `(project, total)` row
per remaining project in lexicographically increasing project order. -/
theorem C2_report_aggregation (l : List Record) :
    reportRows l = aggregateSpec l := by
  have hperm : List.Perm (sortByProject l) l := insertionSortB_perm _ _
  have hsorted : (sortByProject l).Pairwise
      (fun a b => strLeB a.project b.project = true) :=
    sorted_insertionSortB recordLeB
      (fun a b => strLeB_total a.project b.project)
      (fun a b c h1 h2 => strLeB_trans a.project b.project c.project h1 h2) l
  obtain ⟨hrmem, hrsorted⟩ := rows_char (sortByProject l) hsorted
  obtain ⟨hsmem, hssorted⟩ := spec_char l
  apply eq_of_char hrsorted hssorted
  rintro ⟨p, t⟩
  show (p, t) ∈ (groupRuns (sortByProject l)).filterMap rowOfGroup ↔ _
  rw [hrmem p t, hsmem p t, totalFor_perm hperm p]
  constructor
  · rintro ⟨⟨r, hr, hrest⟩, rfl⟩
    exact ⟨⟨r, hperm.mem_iff.mp hr, hrest⟩, rfl⟩
  · rintro ⟨⟨r, hr, hrest⟩, rfl⟩
    exact ⟨⟨r, hperm.mem_iff.mpr hr, hrest⟩, rfl⟩

end Registre
